import Mathlib

/-!
Verification of the priority-queue scheduler (`src/scheduler.c`).

The C program maintains a doubly-linked chain of nodes sorted by the
comparator `process_evaluation`, together with a separate `size` counter.
We embed the chain as a `List process_type` (head of the list = `top` of
the queue, last element = `bottom`) and keep the `size` counter as an
explicit field, so that the code's bookkeeping of `size` is modelled
separately from the chain itself.  Node pointers become list indices;
`malloc` failure is modelled by an allocation oracle where a claim needs
the failure path.  Each definition below mirrors one function of
`scheduler.c`.
-/

/-- Modelled from the spec: `scheduler.h` is not among the sources, so the
field types of `process_type` follow spec §3: `callback` and `context` are
opaque identity-significant references (modelled as naturals), `niceness`
an integer in [10,49], `remaining_time` an unsigned integer, `cpu_mask` a
bitmask of up to 16 bits. -/
structure process_type where
  callback : Nat
  context : Nat
  niceness : Nat
  remaining_time : Nat
  cpu_mask : Nat
deriving DecidableEq, Repr

/-- The `priority_queue` struct: the node chain `top → bottom` as a list,
plus the separate `size` counter field. -/
structure priority_queue where
  items : List process_type
  size : Nat
deriving DecidableEq, Repr

/-- The `push_result` enum of `scheduler.h` (values as used in `scheduler.c`). -/
inductive push_result where
  | push_success
  | push_duplicate
  | push_inconsistent
  | push_error
deriving DecidableEq, Repr

/-- `const uint16_t CPU_MASK_MAX = 65535;` -/
def CPU_MASK_MAX : Nat := 65535

/-- The loop body of `cpu_count`, with an explicit fuel bound: the C loop
halves `mask` each iteration, so `mask` itself bounds the iteration count
(`mask & 1` contributes `mask % 2`). -/
def cpu_count_loop : Nat → Nat → Nat
  | 0, _ => 0
  | fuel + 1, mask => if mask = 0 then 0 else mask % 2 + cpu_count_loop fuel (mask / 2)

/-- `cpu_count(mask)`: counts set bits by repeatedly testing the low bit
and shifting right. -/
def cpu_count (mask : Nat) : Nat := cpu_count_loop mask mask

/-- Spec-side definition of "number of set bits" of a 16-bit mask, stated
independently of the code via `Nat.testBit`. -/
def set_bit_count (mask : Nat) : Nat := (List.range 16).countP fun i => mask.testBit i

/-- `process_evaluation(push_process, process)`: true iff the pushed
process outranks the queued one — strictly smaller priority score
`niceness * remaining_time`, or equal scores and strictly fewer eligible
CPUs. -/
def process_evaluation (push_process process : process_type) : Bool :=
  let push_process_priority := push_process.niceness * push_process.remaining_time
  let process_priority := process.niceness * process.remaining_time
  if push_process_priority = process_priority then
    if cpu_count push_process.cpu_mask < cpu_count process.cpu_mask then true else false
  else
    decide (push_process_priority < process_priority)

/-- `processes_are_valid(queue, process)`: scan the chain for a node with
the same `(callback, context)` identity; report `push_duplicate` when all
of `remaining_time`, `niceness`, `cpu_mask` also agree, `push_inconsistent`
when any differs, `push_success` when no identity match exists. -/
def processes_are_valid : List process_type → process_type → push_result
  | [], _ => .push_success
  | item :: rest, process =>
    if item.callback = process.callback ∧ item.context = process.context then
      if item.remaining_time = process.remaining_time ∧ item.niceness = process.niceness ∧
          item.cpu_mask = process.cpu_mask then
        .push_duplicate
      else
        .push_inconsistent
    else
      processes_are_valid rest process

/-- `create_queue()`: empty chain, `size` 0. -/
def create_queue : priority_queue := ⟨[], 0⟩

/-- The insertion scan of `push_to_queue`: walk from `top` and splice the
new process immediately before the first node it outranks
(`process_evaluation` true); if it outranks none, append at `bottom`. -/
def insert_before_outranked (process : process_type) : List process_type → List process_type
  | [] => [process]
  | item :: rest =>
    if process_evaluation process item then process :: item :: rest
    else item :: insert_before_outranked process rest

/-- `push_to_queue(queue, process)`: empty queue inserts unconditionally;
otherwise validation runs first and a non-`push_success` outcome aborts
with the queue unchanged; otherwise the insertion scan splices the new
node and `size` is incremented.  (Allocation always succeeds in this
model, so the `push_error` branches are not taken.) -/
def push_to_queue (queue : priority_queue) (process : process_type) :
    push_result × priority_queue :=
  match queue.items with
  | [] => (.push_success, ⟨[process], queue.size + 1⟩)
  | _ :: _ =>
    match processes_are_valid queue.items process with
    | .push_success =>
        (.push_success, ⟨insert_before_outranked process queue.items, queue.size + 1⟩)
    | r => (r, queue)

/-- `pop_item(queue, item)` with the node given by its index: the node is
unlinked (`eraseIdx`); `size` is decremented, except that removing the
sole node goes through `clear_queue`, which resets `size` to 0. -/
def pop_item (queue : priority_queue) (i : Nat) : priority_queue :=
  ⟨queue.items.eraseIdx i, if queue.items.length = 1 then 0 else queue.size - 1⟩

/-- `renice(queue, callback, context, niceness)`: find the first node with
the given identity; if none, return false; otherwise overwrite its
niceness, pop the node and re-push the updated process value. -/
def renice (queue : priority_queue) (callback context niceness : Nat) :
    Bool × priority_queue :=
  let i := queue.items.findIdx fun it => it.callback == callback && it.context == context
  if h : i < queue.items.length then
    let p := { queue.items.get ⟨i, h⟩ with niceness := niceness }
    (true, (push_to_queue (pop_item queue i) p).2)
  else
    (false, queue)

/-- `get_top(queue, cpu_mask)`: pointer to the first node whose mask
intersects the request, or `NULL`. -/
def get_top (queue : priority_queue) (cpu_mask : Nat) : Option process_type :=
  queue.items.find? fun it => it.cpu_mask &&& cpu_mask != 0

/-- `pop_top(queue, cpu_mask, out)`: same scan as `get_top`; on a match
the node is removed via `pop_item` and its process value returned. -/
def pop_top (queue : priority_queue) (cpu_mask : Nat) :
    Option process_type × priority_queue :=
  let i := queue.items.findIdx fun it => it.cpu_mask &&& cpu_mask != 0
  if h : i < queue.items.length then
    (some (queue.items.get ⟨i, h⟩), pop_item queue i)
  else
    (none, queue)

/-- The node-copy loop of `copy_queue`; `alloc k` tells whether the k-th
`create_item` call succeeds.  A failed allocation discards the partial
copy (`clear_queue(&new_queue)`) and reports failure. -/
def copy_items (alloc : Nat → Bool) : List process_type → Nat → Option (List process_type)
  | [], _ => some []
  | item :: rest, k =>
    if alloc k then (copy_items alloc rest (k + 1)).map (item :: ·)
    else none

/-- `copy_queue(dest, source)`: build a fresh chain holding copies of the
source's process values in order; on failure `dest` is never written; on
success `dest` receives the new chain and its node count. -/
def copy_queue (alloc : Nat → Bool) (dest source : priority_queue) :
    Bool × priority_queue :=
  match copy_items alloc source.items 0 with
  | none => (false, dest)
  | some l => (true, ⟨l, l.length⟩)

/-- `clear_queue(queue)`: frees every node and resets to the empty state. -/
def clear_queue (_queue : priority_queue) : priority_queue := ⟨[], 0⟩

/-- `run_top(queue, cpu_mask, run_time)`.  `F cb rt ctx` gives the return
value of the callback `cb` invoked with `(rt, ctx)`.  The C code selects
the first eligible node (`get_top`), invokes its callback, and then either
pops it (`call_res == 0`) or updates its `remaining_time` in place through
the node pointer, pops it via a fresh `pop_top` scan, and re-pushes it.
The in-place write is modelled by `List.set` at the selected index. -/
def run_top (F : Nat → Nat → Nat → Nat) (queue : priority_queue)
    (cpu_mask run_time : Nat) : Nat × priority_queue :=
  match queue.items with
  | [] => (0, queue)
  | _ :: _ =>
    match get_top queue cpu_mask with
    | none => (0, queue)
    | some proc =>
      let call_res := F proc.callback run_time proc.context
      if call_res = 0 then
        (0, (pop_top queue cpu_mask).2)
      else
        let new_time :=
          if run_time < proc.remaining_time then proc.remaining_time - run_time + call_res
          else call_res
        let i := queue.items.findIdx fun it => it.cpu_mask &&& cpu_mask != 0
        let queue1 : priority_queue :=
          ⟨queue.items.set i { proc with remaining_time := new_time }, queue.size⟩
        match pop_top queue1 cpu_mask with
        | (some p, queue2) => (p.remaining_time, (push_to_queue queue2 p).2)
        | (none, queue2) => (0, queue2)

/-- The representation invariant of the queue: the chain is sorted so that
no later entry outranks an earlier one, the `size` counter equals the
chain length, and the chain is empty iff `size` is 0. -/
def queue_inv (queue : priority_queue) : Prop :=
  queue.items.Pairwise (fun a b => process_evaluation b a = false) ∧
  queue.size = queue.items.length ∧
  (queue.items = [] ↔ queue.size = 0)

/-- No two queued entries share the `(callback, context)` identity
(spec §3 identity invariant). -/
def UniqueIds (l : List process_type) : Prop :=
  l.Pairwise fun a b => ¬(a.callback = b.callback ∧ a.context = b.context)

/-- Concrete fixture process (spec §8 example 1, P1): score 1000, mask 0b0001. -/
def pW1 : process_type := ⟨1, 0, 10, 100, 1⟩

/-- Concrete fixture process (spec §8 example 1, P2): score 200, mask 0b0011. -/
def pW2 : process_type := ⟨2, 0, 20, 10, 3⟩

/-- Concrete fixture queue holding `pW2` then `pW1` in sorted order. -/
def qW : priority_queue := ⟨[pW2, pW1], 2⟩

/-! ### Arithmetic facts about `cpu_count` and the comparator -/

theorem cpu_count_loop_zero : ∀ fuel, cpu_count_loop fuel 0 = 0
  | 0 => rfl
  | _ + 1 => by simp [cpu_count_loop]

theorem cpu_count_loop_congr :
    ∀ fuel1 fuel2 mask, mask ≤ fuel1 → mask ≤ fuel2 →
      cpu_count_loop fuel1 mask = cpu_count_loop fuel2 mask := by
  intro fuel1
  induction fuel1 with
  | zero =>
    intro fuel2 mask h1 _
    have hm : mask = 0 := by omega
    subst hm
    rw [cpu_count_loop_zero, cpu_count_loop_zero]
  | succ f ih =>
    intro fuel2 mask h1 h2
    cases mask with
    | zero => rw [cpu_count_loop_zero, cpu_count_loop_zero]
    | succ m =>
      cases fuel2 with
      | zero => omega
      | succ f2 =>
        show (m + 1) % 2 + cpu_count_loop f ((m + 1) / 2) =
          (m + 1) % 2 + cpu_count_loop f2 ((m + 1) / 2)
        rw [ih f2 ((m + 1) / 2) (by omega) (by omega)]

theorem cpu_count_rec (mask : Nat) :
    cpu_count mask = if mask = 0 then 0 else mask % 2 + cpu_count (mask / 2) := by
  unfold cpu_count
  cases mask with
  | zero => simp [cpu_count_loop_zero]
  | succ m =>
    show (m + 1) % 2 + cpu_count_loop m ((m + 1) / 2) = _
    rw [if_neg (Nat.succ_ne_zero m),
      cpu_count_loop_congr m ((m + 1) / 2) ((m + 1) / 2) (by omega) (Nat.le_refl _)]

theorem cpu_count_eq_countP :
    ∀ (K mask : Nat), mask < 2 ^ K →
      cpu_count mask = (List.range K).countP fun i => mask.testBit i := by
  intro K
  induction K with
  | zero =>
    intro mask h
    interval_cases mask
    simp [cpu_count_rec]
  | succ K ih =>
    intro mask h
    by_cases h0 : mask = 0
    · subst h0
      rw [cpu_count_rec]
      simp [Nat.zero_testBit, List.countP_eq_zero]
    · rw [cpu_count_rec, if_neg h0]
      have hpow : 2 ^ (K + 1) = 2 ^ K * 2 := by rw [Nat.pow_succ]
      have hdiv : mask / 2 < 2 ^ K := by omega
      rw [ih (mask / 2) hdiv]
      have hcomp : ((fun i => mask.testBit i) ∘ Nat.succ) = fun i => (mask / 2).testBit i :=
        funext fun i => by simp [Function.comp, Nat.testBit_succ]
      rw [List.range_succ_eq_map, List.countP_cons, List.countP_map, hcomp]
      simp only [Nat.testBit_zero]
      rcases Nat.mod_two_eq_zero_or_one mask with hm | hm
      · simp [hm]
      · simp [hm]
        omega

theorem cpu_count_eq_set_bit_count (mask : Nat) (h : mask ≤ CPU_MASK_MAX) :
    cpu_count mask = set_bit_count mask := by
  have : mask < 2 ^ 16 := by
    unfold CPU_MASK_MAX at h
    norm_num
    omega
  exact cpu_count_eq_countP 16 mask this

theorem process_evaluation_true_iff (a b : process_type) :
    process_evaluation a b = true ↔
      a.niceness * a.remaining_time < b.niceness * b.remaining_time ∨
      (a.niceness * a.remaining_time = b.niceness * b.remaining_time ∧
        cpu_count a.cpu_mask < cpu_count b.cpu_mask) := by
  unfold process_evaluation
  by_cases h : a.niceness * a.remaining_time = b.niceness * b.remaining_time <;>
    by_cases h2 : cpu_count a.cpu_mask < cpu_count b.cpu_mask <;>
      simp [h, h2]

theorem process_evaluation_false_iff (a b : process_type) :
    process_evaluation a b = false ↔
      b.niceness * b.remaining_time < a.niceness * a.remaining_time ∨
      (a.niceness * a.remaining_time = b.niceness * b.remaining_time ∧
        ¬cpu_count a.cpu_mask < cpu_count b.cpu_mask) := by
  rw [← Bool.not_eq_true, process_evaluation_true_iff]
  constructor <;> intro h <;> omega

theorem process_evaluation_asymm {a b : process_type}
    (h : process_evaluation a b = true) : process_evaluation b a = false := by
  rw [process_evaluation_true_iff] at h
  rw [process_evaluation_false_iff]
  omega

theorem process_evaluation_false_of_true_of_false {p a x : process_type}
    (h1 : process_evaluation p a = true) (h2 : process_evaluation x a = false) :
    process_evaluation x p = false := by
  rw [process_evaluation_true_iff] at h1
  rw [process_evaluation_false_iff] at h2 ⊢
  omega

theorem process_evaluation_trans_false {a b c : process_type}
    (h1 : process_evaluation b a = false) (h2 : process_evaluation c b = false) :
    process_evaluation c a = false := by
  rw [process_evaluation_false_iff] at h1 h2 ⊢
  omega

theorem process_evaluation_true_of_score_lt_of_false {a b c : process_type}
    (h1 : a.niceness * a.remaining_time < b.niceness * b.remaining_time)
    (h2 : process_evaluation c b = false) :
    process_evaluation a c = true := by
  rw [process_evaluation_false_iff] at h2
  rw [process_evaluation_true_iff]
  omega

/-! ### Properties of the insertion scan -/

theorem mem_insert_before_outranked {x p : process_type} {l : List process_type} :
    x ∈ insert_before_outranked p l ↔ x = p ∨ x ∈ l := by
  induction l with
  | nil => simp [insert_before_outranked]
  | cons a rest ih =>
    rw [insert_before_outranked]
    split
    · exact List.mem_cons
    · simp only [List.mem_cons, ih]
      tauto

theorem insert_before_outranked_perm (p : process_type) (l : List process_type) :
    (insert_before_outranked p l).Perm (p :: l) := by
  induction l with
  | nil => exact List.Perm.refl _
  | cons a rest ih =>
    rw [insert_before_outranked]
    split
    · exact List.Perm.refl _
    · exact (ih.cons a).trans (List.Perm.swap p a rest)

theorem length_insert_before_outranked (p : process_type) (l : List process_type) :
    (insert_before_outranked p l).length = l.length + 1 :=
  (insert_before_outranked_perm p l).length_eq

theorem pairwise_insert_before_outranked {p : process_type} {l : List process_type}
    (hl : l.Pairwise fun a b => process_evaluation b a = false) :
    (insert_before_outranked p l).Pairwise fun a b => process_evaluation b a = false := by
  induction l with
  | nil => simp [insert_before_outranked]
  | cons a rest ih =>
    rw [List.pairwise_cons] at hl
    obtain ⟨ha, hrest⟩ := hl
    rw [insert_before_outranked]
    split
    next heval =>
      rw [List.pairwise_cons]
      refine ⟨?_, List.pairwise_cons.mpr ⟨ha, hrest⟩⟩
      intro y hy
      rcases List.mem_cons.mp hy with rfl | hy'
      · exact process_evaluation_asymm heval
      · exact process_evaluation_false_of_true_of_false heval (ha y hy')
    next heval =>
      rw [List.pairwise_cons]
      refine ⟨?_, ih hrest⟩
      intro y hy
      rcases mem_insert_before_outranked.mp hy with rfl | hy'
      · exact Bool.eq_false_iff.mpr heval
      · exact ha y hy'

theorem insert_before_outranked_eq (p : process_type) (l : List process_type) :
    insert_before_outranked p l =
      l.take (l.findIdx fun x => process_evaluation p x) ++
        p :: l.drop (l.findIdx fun x => process_evaluation p x) := by
  induction l with
  | nil => simp [insert_before_outranked]
  | cons a rest ih =>
    rw [insert_before_outranked, List.findIdx_cons]
    by_cases h : process_evaluation p a = true
    · simp [h]
    · have hf : process_evaluation p a = false := Bool.eq_false_iff.mpr h
      simp [hf, ih]

/-! ### Properties of identity validation -/

theorem processes_are_valid_success_iff (l : List process_type) (p : process_type) :
    processes_are_valid l p = .push_success ↔
      ∀ it ∈ l, ¬(it.callback = p.callback ∧ it.context = p.context) := by
  induction l with
  | nil => simp [processes_are_valid]
  | cons a rest ih =>
    by_cases hid : a.callback = p.callback ∧ a.context = p.context
    · have hform : processes_are_valid (a :: rest) p =
          if a.remaining_time = p.remaining_time ∧ a.niceness = p.niceness ∧
              a.cpu_mask = p.cpu_mask then .push_duplicate else .push_inconsistent := by
        simp [processes_are_valid, hid]
      rw [hform]
      constructor
      · intro h
        split at h <;> exact push_result.noConfusion h
      · intro h
        exact absurd hid (h a (List.mem_cons_self a rest))
    · have hform : processes_are_valid (a :: rest) p = processes_are_valid rest p := by
        simp [processes_are_valid, hid]
      rw [hform, ih]
      constructor
      · intro h it hit
        rcases List.mem_cons.mp hit with rfl | h2
        · exact hid
        · exact h it h2
      · intro h it hit
        exact h it (List.mem_cons_of_mem a hit)

theorem processes_are_valid_of_mem {l : List process_type} {p e : process_type}
    (hu : UniqueIds l) (he : e ∈ l)
    (hid : e.callback = p.callback ∧ e.context = p.context) :
    processes_are_valid l p =
      if e.remaining_time = p.remaining_time ∧ e.niceness = p.niceness ∧
          e.cpu_mask = p.cpu_mask then .push_duplicate else .push_inconsistent := by
  induction l with
  | nil => cases he
  | cons a rest ih =>
    unfold UniqueIds at hu
    rw [List.pairwise_cons] at hu
    obtain ⟨ha, hrest⟩ := hu
    rcases List.mem_cons.mp he with rfl | he'
    · simp [processes_are_valid, hid]
    · have haid : ¬(a.callback = p.callback ∧ a.context = p.context) := by
        intro hcc
        exact ha e he' ⟨hcc.1.trans hid.1.symm, hcc.2.trans hid.2.symm⟩
      have hform : processes_are_valid (a :: rest) p = processes_are_valid rest p := by
        simp [processes_are_valid, haid]
      rw [hform]
      exact ih hrest he'

/-! ### Uniqueness of identities -/

theorem uniqueIds_eraseIdx_no_match :
    ∀ {l : List process_type} {i : Nat} {e : process_type}, UniqueIds l → l[i]? = some e →
      ∀ it ∈ l.eraseIdx i, ¬(it.callback = e.callback ∧ it.context = e.context) := by
  intro l
  induction l with
  | nil =>
    intro i e _ he
    simp at he
  | cons a rest ih =>
    intro i e hu he
    unfold UniqueIds at hu
    rw [List.pairwise_cons] at hu
    obtain ⟨ha, hrest⟩ := hu
    cases i with
    | zero =>
      rw [List.getElem?_cons_zero, Option.some_inj] at he
      subst he
      intro it hit
      rw [List.eraseIdx_cons_zero] at hit
      intro hcc
      exact ha it hit ⟨hcc.1.symm, hcc.2.symm⟩
    | succ j =>
      rw [List.getElem?_cons_succ] at he
      intro it hit
      rw [List.eraseIdx_cons_succ] at hit
      rcases List.mem_cons.mp hit with rfl | hit'
      · intro hcc
        exact ha e (List.getElem?_mem he) hcc
      · exact ih hrest he it hit'

theorem findIdx_eq_of_uniqueIds {l : List process_type} {cb ctx : Nat} {i : Nat}
    (hu : UniqueIds l) (h : i < l.length)
    (hid : (l.get ⟨i, h⟩).callback = cb ∧ (l.get ⟨i, h⟩).context = ctx) :
    (l.findIdx fun it => it.callback == cb && it.context == ctx) = i := by
  rw [List.findIdx_eq h]
  constructor
  · rw [List.get_eq_getElem] at hid
    simp [hid.1, hid.2]
  · intro j hji
    have hj : j < l.length := Nat.lt_trans hji h
    have hr := List.pairwise_iff_getElem.mp hu j i hj h hji
    rw [List.get_eq_getElem] at hid
    rw [Bool.eq_false_iff]
    intro hp
    rw [Bool.and_eq_true, beq_iff_eq, beq_iff_eq] at hp
    exact hr ⟨hp.1.trans hid.1.symm, hp.2.trans hid.2.symm⟩

/-! ### Bridges between `find?`, `findIdx` and the queue operations -/

theorem find?_eq_get_findIdx {pred : process_type → Bool} :
    ∀ {l : List process_type} (h : l.findIdx pred < l.length),
      l.find? pred = some (l.get ⟨l.findIdx pred, h⟩) := by
  intro l
  induction l with
  | nil => intro h; simp at h
  | cons a rest ih =>
    intro h
    by_cases pa : pred a = true
    · rw [List.find?_cons_of_pos _ pa]
      simp [List.findIdx_cons, pa]
    · have hf : pred a = false := Bool.eq_false_iff.mpr pa
      rw [List.find?_cons_of_neg _ pa]
      have hx : (a :: rest).findIdx pred = rest.findIdx pred + 1 := by
        simp [List.findIdx_cons, hf]
      have hlt : rest.findIdx pred < rest.length := by
        rw [hx] at h
        simpa using h
      rw [ih hlt]
      congr 1
      simp [hx]

theorem find?_eq_none_of_findIdx_ge {pred : process_type → Bool} {l : List process_type}
    (h : ¬l.findIdx pred < l.length) : l.find? pred = none := by
  rw [List.find?_eq_none]
  intro x hx hpx
  exact h (List.findIdx_lt_length.mpr ⟨x, hx, hpx⟩)

theorem get_top_none_iff (q : priority_queue) (m : Nat) :
    get_top q m = none ↔ ∀ p ∈ q.items, p.cpu_mask &&& m = 0 := by
  unfold get_top
  rw [List.find?_eq_none]
  constructor
  · intro h p hp
    have := h p hp
    simpa using this
  · intro h p hp
    simp [h p hp]

theorem get_top_found {q : priority_queue} {m : Nat}
    (h : (q.items.findIdx fun it => it.cpu_mask &&& m != 0) < q.items.length) :
    get_top q m = some (q.items.get ⟨q.items.findIdx fun it => it.cpu_mask &&& m != 0, h⟩) :=
  find?_eq_get_findIdx h

theorem get_top_isSome_found {q : priority_queue} {m : Nat} {p : process_type}
    (h : get_top q m = some p) :
    ∃ hlt : (q.items.findIdx fun it => it.cpu_mask &&& m != 0) < q.items.length,
      q.items.get ⟨q.items.findIdx fun it => it.cpu_mask &&& m != 0, hlt⟩ = p := by
  by_cases hlt : (q.items.findIdx fun it => it.cpu_mask &&& m != 0) < q.items.length
  · refine ⟨hlt, ?_⟩
    have := @get_top_found q m hlt
    rw [h] at this
    exact (Option.some_inj.mp this).symm
  · rw [show get_top q m = q.items.find? fun it => it.cpu_mask &&& m != 0 from rfl,
      find?_eq_none_of_findIdx_ge hlt] at h
    cases h

theorem pop_top_found {q : priority_queue} {m : Nat}
    (h : (q.items.findIdx fun it => it.cpu_mask &&& m != 0) < q.items.length) :
    pop_top q m = (some (q.items.get ⟨q.items.findIdx fun it => it.cpu_mask &&& m != 0, h⟩),
      pop_item q (q.items.findIdx fun it => it.cpu_mask &&& m != 0)) := by
  unfold pop_top
  rw [dif_pos h]

theorem pop_top_not_found {q : priority_queue} {m : Nat}
    (h : ¬(q.items.findIdx fun it => it.cpu_mask &&& m != 0) < q.items.length) :
    pop_top q m = (none, q) := by
  unfold pop_top
  rw [dif_neg h]

theorem eraseIdx_set_same : ∀ (l : List process_type) (i : Nat) (x : process_type),
    (l.set i x).eraseIdx i = l.eraseIdx i := by
  intro l
  induction l with
  | nil => intro i x; simp
  | cons a rest ih =>
    intro i x
    cases i with
    | zero => simp
    | succ j => simp only [List.set_cons_succ, List.eraseIdx_cons_succ, ih j x]

theorem findIdx_set_eq {pred : process_type → Bool} :
    ∀ {l : List process_type} {i : Nat}, l.findIdx pred = i → i < l.length →
      ∀ {x : process_type}, pred x = true → (l.set i x).findIdx pred = i := by
  intro l
  induction l with
  | nil => intro i _ h; simp at h
  | cons a rest ih =>
    intro i hi h x hx
    cases i with
    | zero =>
      rw [List.set_cons_zero, List.findIdx_cons, hx]
      rfl
    | succ j =>
      have hpa : pred a = false := by
        cases hpa : pred a
        · rfl
        · rw [List.findIdx_cons, hpa] at hi
          simp only [cond_true] at hi
          exact absurd hi (by omega)
      rw [List.findIdx_cons, hpa] at hi
      simp only [cond_false] at hi
      have hj : rest.findIdx pred = j := by omega
      rw [List.set_cons_succ, List.findIdx_cons, hpa]
      simp only [cond_false]
      rw [ih hj (by simpa using h) hx]

/-! ### Unfolding lemmas for the queue operations -/

theorem push_to_queue_of_valid {q : priority_queue} {p : process_type}
    (hne : q.items ≠ [])
    (hv : processes_are_valid q.items p = .push_success) :
    push_to_queue q p =
      (.push_success, ⟨insert_before_outranked p q.items, q.size + 1⟩) := by
  obtain ⟨items, size⟩ := q
  cases items with
  | nil => exact absurd rfl hne
  | cons a rest => simp only [push_to_queue, hv]

theorem push_to_queue_of_invalid {q : priority_queue} {p : process_type}
    (hv : processes_are_valid q.items p ≠ .push_success) :
    push_to_queue q p = (processes_are_valid q.items p, q) := by
  obtain ⟨items, size⟩ := q
  cases items with
  | nil => exact absurd rfl hv
  | cons a rest =>
    cases hval : processes_are_valid (a :: rest) p with
    | push_success => exact absurd hval hv
    | push_duplicate => simp only [push_to_queue, hval]
    | push_inconsistent => simp only [push_to_queue, hval]
    | push_error => simp only [push_to_queue, hval]

theorem push_to_queue_success_spec {q : priority_queue} {p : process_type}
    (hv : processes_are_valid q.items p = .push_success) :
    (push_to_queue q p).1 = .push_success ∧
    (push_to_queue q p).2.items.Perm (p :: q.items) ∧
    (push_to_queue q p).2.size = q.size + 1 := by
  obtain ⟨items, size⟩ := q
  cases items with
  | nil => exact ⟨rfl, List.Perm.refl _, rfl⟩
  | cons a rest =>
    rw [push_to_queue_of_valid (by simp) hv]
    exact ⟨rfl, insert_before_outranked_perm p (a :: rest), rfl⟩

theorem renice_found {q : priority_queue} {cb ctx : Nat} (n : Nat)
    (h : (q.items.findIdx fun it => it.callback == cb && it.context == ctx) <
      q.items.length) :
    renice q cb ctx n =
      (true, (push_to_queue
        (pop_item q (q.items.findIdx fun it => it.callback == cb && it.context == ctx))
        { q.items.get ⟨q.items.findIdx fun it => it.callback == cb && it.context == ctx, h⟩
            with niceness := n }).2) := by
  simp only [renice]
  rw [dif_pos h]

theorem renice_not_found {q : priority_queue} {cb ctx : Nat} (n : Nat)
    (h : ¬(q.items.findIdx fun it => it.callback == cb && it.context == ctx) <
      q.items.length) :
    renice q cb ctx n = (false, q) := by
  simp only [renice]
  rw [dif_neg h]

/-! ### Invariant preservation -/

theorem queue_inv_pop_item {q : priority_queue} (hq : queue_inv q) {i : Nat}
    (hi : i < q.items.length) : queue_inv (pop_item q i) := by
  obtain ⟨hs, hl, hn⟩ := hq
  have hlen : (q.items.eraseIdx i).length = q.items.length - 1 :=
    List.length_eraseIdx_of_lt hi
  refine ⟨List.Pairwise.sublist (List.eraseIdx_sublist _ _) hs, ?_, ?_⟩
  · show (if q.items.length = 1 then 0 else q.size - 1) = (q.items.eraseIdx i).length
    rw [hlen]
    split <;> omega
  · show q.items.eraseIdx i = [] ↔ (if q.items.length = 1 then 0 else q.size - 1) = 0
    rw [← List.length_eq_zero, hlen]
    split <;> omega

theorem queue_inv_push {q : priority_queue} (hq : queue_inv q) (p : process_type) :
    queue_inv (push_to_queue q p).2 := by
  obtain ⟨hs, hl, hn⟩ := hq
  obtain ⟨items, size⟩ := q
  cases items with
  | nil =>
    have hsize : size = 0 := by simpa using hl
    subst hsize
    refine ⟨?_, rfl, ?_⟩
    · exact List.pairwise_singleton _ _
    · show [p] = [] ↔ 0 + 1 = 0
      simp
  | cons a rest =>
    cases hval : processes_are_valid (a :: rest) p with
    | push_success =>
      rw [push_to_queue_of_valid (by exact List.cons_ne_nil a rest) hval]
      have hl' : size = (a :: rest).length := hl
      refine ⟨pairwise_insert_before_outranked hs, ?_, ?_⟩
      · show size + 1 = (insert_before_outranked p (a :: rest)).length
        rw [length_insert_before_outranked]
        omega
      · constructor
        · intro hcontra
          have hcontra' : insert_before_outranked p (a :: rest) = [] := hcontra
          have hlen := length_insert_before_outranked p (a :: rest)
          rw [hcontra'] at hlen
          simp at hlen
        · intro hcontra
          exact absurd hcontra (Nat.succ_ne_zero _)
    | push_duplicate =>
      rw [push_to_queue_of_invalid (by simp [hval])]
      exact ⟨hs, hl, hn⟩
    | push_inconsistent =>
      rw [push_to_queue_of_invalid (by simp [hval])]
      exact ⟨hs, hl, hn⟩
    | push_error =>
      rw [push_to_queue_of_invalid (by simp [hval])]
      exact ⟨hs, hl, hn⟩

theorem queue_inv_pop_top {q : priority_queue} (hq : queue_inv q) (m : Nat) :
    queue_inv (pop_top q m).2 := by
  by_cases h : (q.items.findIdx fun it => it.cpu_mask &&& m != 0) < q.items.length
  · rw [pop_top_found h]
    exact queue_inv_pop_item hq h
  · rw [pop_top_not_found h]
    exact hq

theorem queue_inv_clear (q : priority_queue) : queue_inv (clear_queue q) :=
  ⟨List.Pairwise.nil, rfl, by simp [clear_queue]⟩

theorem queue_inv_renice {q : priority_queue} (hq : queue_inv q) (cb ctx n : Nat) :
    queue_inv (renice q cb ctx n).2 := by
  by_cases h : (q.items.findIdx fun it => it.callback == cb && it.context == ctx) <
      q.items.length
  · rw [renice_found n h]
    exact queue_inv_push (queue_inv_pop_item hq h) _
  · rw [renice_not_found n h]
    exact hq

theorem pop_top_eq_of_findIdx {q : priority_queue} {m : Nat} {i : Nat}
    (hfi : (q.items.findIdx fun it => it.cpu_mask &&& m != 0) = i)
    {p : process_type} (hp : q.items[i]? = some p) :
    pop_top q m = (some p, pop_item q i) := by
  subst hfi
  obtain ⟨hi, hget⟩ := List.getElem?_eq_some_iff.mp hp
  rw [pop_top_found hi]
  rw [List.get_eq_getElem, hget]

/-! ### Unfolding lemmas for `run_top` -/

theorem run_top_no_match {F : Nat → Nat → Nat → Nat} {q : priority_queue} {m rt : Nat}
    (h : get_top q m = none) : run_top F q m rt = (0, q) := by
  obtain ⟨items, size⟩ := q
  cases items with
  | nil => rfl
  | cons a rest => simp only [run_top, h]

theorem run_top_callback_zero {F : Nat → Nat → Nat → Nat} {q : priority_queue}
    {m rt : Nat} {proc : process_type} (htop : get_top q m = some proc)
    (hres : F proc.callback rt proc.context = 0) :
    run_top F q m rt = (0, (pop_top q m).2) := by
  obtain ⟨items, size⟩ := q
  cases items with
  | nil => simp [get_top] at htop
  | cons a rest =>
    simp only [run_top, htop, hres]
    simp

theorem run_top_callback_nonzero {F : Nat → Nat → Nat → Nat} {q : priority_queue}
    {m rt : Nat} {proc : process_type} (htop : get_top q m = some proc)
    (hres : F proc.callback rt proc.context ≠ 0) {nt i : Nat}
    (hnt : nt = if rt < proc.remaining_time
      then proc.remaining_time - rt + F proc.callback rt proc.context
      else F proc.callback rt proc.context)
    (hi : i = q.items.findIdx fun it => it.cpu_mask &&& m != 0) :
    ∃ hlt : i < q.items.length,
      q.items.get ⟨i, hlt⟩ = proc ∧
      (pop_top ⟨q.items.set i { proc with remaining_time := nt }, q.size⟩ m).1 =
        some { proc with remaining_time := nt } ∧
      run_top F q m rt =
        (nt, (push_to_queue (pop_item q i) { proc with remaining_time := nt }).2) := by
  obtain ⟨hlt0, hget0⟩ := get_top_isSome_found htop
  have hlt : i < q.items.length := hi ▸ hlt0
  have hget : q.items.get ⟨i, hlt⟩ = proc := by subst hi; exact hget0
  refine ⟨hlt, hget, ?_⟩
  have hpred_proc : (fun it => it.cpu_mask &&& m != 0) proc = true := by
    rw [← hget]
    subst hi
    exact @List.findIdx_getElem process_type (fun it => it.cpu_mask &&& m != 0)
      q.items hlt0
  have hpred' : (fun it => it.cpu_mask &&& m != 0) { proc with remaining_time := nt } = true :=
    hpred_proc
  have hfi1 : ((q.items.set i { proc with remaining_time := nt }).findIdx
      fun it => it.cpu_mask &&& m != 0) = i := by
    subst hi
    exact findIdx_set_eq rfl hlt0 hpred'
  have hp1 : (q.items.set i { proc with remaining_time := nt })[i]? =
      some { proc with remaining_time := nt } := List.getElem?_set_self hlt
  have hpop1 : pop_top ⟨q.items.set i { proc with remaining_time := nt }, q.size⟩ m =
      (some { proc with remaining_time := nt },
        pop_item ⟨q.items.set i { proc with remaining_time := nt }, q.size⟩ i) :=
    pop_top_eq_of_findIdx hfi1 hp1
  have hpop_item_eq : pop_item ⟨q.items.set i { proc with remaining_time := nt }, q.size⟩ i =
      pop_item q i := by
    unfold pop_item
    rw [eraseIdx_set_same]
    simp
  refine ⟨by rw [hpop1], ?_⟩
  obtain ⟨items, size⟩ := q
  cases items with
  | nil => simp [get_top] at htop
  | cons a rest =>
    simp only [run_top, htop]
    rw [if_neg hres, ← hi, ← hnt]
    rw [hpop1, hpop_item_eq]

/-! ### The copy loop -/

theorem copy_items_all {alloc : Nat → Bool} :
    ∀ (l : List process_type) (k0 : Nat),
      (∀ j, j < l.length → alloc (k0 + j) = true) →
      copy_items alloc l k0 = some l := by
  intro l
  induction l with
  | nil => intro k0 _; rfl
  | cons a rest ih =>
    intro k0 h
    have h0 : alloc k0 = true := by
      have := h 0 (by simp)
      simpa using this
    rw [copy_items, if_pos h0, ih (k0 + 1) fun j hj => ?_]
    · rfl
    · have := h (j + 1) (by simpa using Nat.succ_lt_succ hj)
      rw [show k0 + 1 + j = k0 + (j + 1) by omega]
      exact this

theorem copy_items_fail {alloc : Nat → Bool} :
    ∀ (l : List process_type) (k0 : Nat),
      (∃ j, j < l.length ∧ alloc (k0 + j) = false) →
      copy_items alloc l k0 = none := by
  intro l
  induction l with
  | nil =>
    intro k0 h
    obtain ⟨j, hj, _⟩ := h
    simp at hj
  | cons a rest ih =>
    intro k0 h
    by_cases h0 : alloc k0 = true
    · obtain ⟨j, hj, hfail⟩ := h
      cases j with
      | zero => rw [Nat.add_zero] at hfail; rw [hfail] at h0; cases h0
      | succ j' =>
        rw [copy_items, if_pos h0,
          ih (k0 + 1) ⟨j', by simpa using Nat.lt_of_succ_lt_succ hj,
            by rw [show k0 + 1 + j' = k0 + (j' + 1) by omega]; exact hfail⟩]
        rfl
    · rw [copy_items, if_neg h0]

theorem copy_items_some_eq {alloc : Nat → Bool} :
    ∀ {l : List process_type} {k0 : Nat} {l' : List process_type},
      copy_items alloc l k0 = some l' → l' = l := by
  intro l
  induction l with
  | nil =>
    intro k0 l' h
    simp [copy_items] at h
    exact h
  | cons a rest ih =>
    intro k0 l' h
    rw [copy_items] at h
    split at h
    · cases hc : copy_items alloc rest (k0 + 1) with
      | none => rw [hc] at h; cases h
      | some r =>
        rw [hc] at h
        simp at h
        rw [ih hc] at h
        exact h.symm
    · cases h

theorem push_items_of_valid {q : priority_queue} {p : process_type}
    (hv : processes_are_valid q.items p = .push_success) :
    (push_to_queue q p).2.items = insert_before_outranked p q.items := by
  obtain ⟨items, size⟩ := q
  cases items with
  | nil => rfl
  | cons a rest => rw [push_to_queue_of_valid (by exact List.cons_ne_nil a rest) hv]

theorem findIdx_append_first_true {pred : process_type → Bool} :
    ∀ (l1 : List process_type) (x : process_type) (l2 : List process_type),
      (∀ y ∈ l1, pred y = false) → pred x = true →
      (l1 ++ x :: l2).findIdx pred = l1.length := by
  intro l1
  induction l1 with
  | nil =>
    intro x l2 _ hx
    simp [List.findIdx_cons, hx]
  | cons a r ih =>
    intro x l2 h1 hx
    have ha : pred a = false := h1 a (List.mem_cons_self a r)
    rw [List.cons_append, List.findIdx_cons, ha]
    simp only [cond_false]
    rw [ih x l2 (fun y hy => h1 y (List.mem_cons_of_mem a hy)) hx]
    rfl

theorem valid_after_pop {q : priority_queue} {i : Nat} {e : process_type}
    (hu : UniqueIds q.items) (he : q.items[i]? = some e)
    (p : process_type) (hcb : p.callback = e.callback) (hctx : p.context = e.context) :
    processes_are_valid (q.items.eraseIdx i) p = .push_success := by
  rw [processes_are_valid_success_iff]
  intro it hit hcc
  exact uniqueIds_eraseIdx_no_match hu he it hit ⟨hcc.1.trans hcb, hcc.2.trans hctx⟩

theorem push_pop_size {q : priority_queue} (hq : queue_inv q) {i : Nat}
    (hi : i < q.items.length) {p : process_type}
    (hv : processes_are_valid (q.items.eraseIdx i) p = .push_success) :
    (push_to_queue (pop_item q i) p).2.size = q.size := by
  have hs := (@push_to_queue_success_spec (pop_item q i) p hv).2.2
  rw [hs]
  show (if q.items.length = 1 then 0 else q.size - 1) + 1 = q.size
  have hl := hq.2.1
  split <;> omega

-- sanity checks against the spec's example scenarios
example :
    (push_to_queue (push_to_queue create_queue ⟨1, 0, 10, 100, 1⟩).2 ⟨2, 0, 20, 10, 3⟩).2.items =
      [⟨2, 0, 20, 10, 3⟩, ⟨1, 0, 10, 100, 1⟩] := by decide

example :
    (push_to_queue (push_to_queue create_queue ⟨1, 0, 20, 10, 1⟩).2 ⟨2, 0, 10, 20, 3⟩).2.items =
      [⟨1, 0, 20, 10, 1⟩, ⟨2, 0, 10, 20, 3⟩] := by decide

/-! ### The claims -/

/-- C1: every public operation (`push_to_queue`, `pop_top`, `renice`,
`copy_queue`, `clear_queue`, `run_top`) preserves the representation
invariant: the chain stays sorted (no later entry outranks an earlier one
under the comparator), the `size` field equals the chain length, and
top/bottom are null (chain empty) iff `size` is 0. -/
theorem claim_C1 (q d : priority_queue) (hq : queue_inv q) (hd : queue_inv d) :
    (∀ p, queue_inv (push_to_queue q p).2) ∧
    (∀ m, queue_inv (pop_top q m).2) ∧
    (∀ cb ctx n, queue_inv (renice q cb ctx n).2) ∧
    (∀ alloc, queue_inv (copy_queue alloc d q).2) ∧
    queue_inv (clear_queue q) ∧
    (∀ F m rt, queue_inv (run_top F q m rt).2) := by
  refine ⟨fun p => queue_inv_push hq p, fun m => queue_inv_pop_top hq m,
    fun cb ctx n => queue_inv_renice hq cb ctx n, fun alloc => ?_,
    queue_inv_clear q, fun F m rt => ?_⟩
  · cases hc : copy_items alloc q.items 0 with
    | none =>
      show queue_inv (match copy_items alloc q.items 0 with
        | none => ((false : Bool), d)
        | some l => (true, ⟨l, l.length⟩)).2
      rw [hc]
      exact hd
    | some l =>
      obtain rfl := copy_items_some_eq hc
      show queue_inv (match copy_items alloc q.items 0 with
        | none => ((false : Bool), d)
        | some l => (true, ⟨l, l.length⟩)).2
      rw [hc]
      exact ⟨hq.1, rfl, (List.length_eq_zero).symm⟩
  · cases htop : get_top q m with
    | none =>
      rw [run_top_no_match htop]
      exact hq
    | some proc =>
      by_cases hres : F proc.callback rt proc.context = 0
      · rw [run_top_callback_zero htop hres]
        exact queue_inv_pop_top hq m
      · obtain ⟨hlt, hget, hpop1, heq⟩ := run_top_callback_nonzero htop hres rfl rfl
        rw [heq]
        exact queue_inv_push (queue_inv_pop_item hq hlt) _

/-- Witness for C1: the invariant holds after pushing a fresh process onto
the concrete two-element queue `qW`. -/
theorem claim_C1_witness : queue_inv (push_to_queue qW ⟨3, 0, 15, 5, 2⟩).2 :=
  (claim_C1 qW qW (by unfold queue_inv; decide) (by unfold queue_inv; decide)).1
    ⟨3, 0, 15, 5, 2⟩

/-- C2: `process_evaluation a b` is true iff `score a < score b`, or the
scores are equal and `a`'s CPU mask has strictly fewer set bits than `b`'s,
where `score p = niceness p * remaining_time p` and set-bit counts are
stated independently via `Nat.testBit`. -/
theorem claim_C2 (a b : process_type)
    (ha : a.cpu_mask ≤ CPU_MASK_MAX) (hb : b.cpu_mask ≤ CPU_MASK_MAX) :
    process_evaluation a b = true ↔
      a.niceness * a.remaining_time < b.niceness * b.remaining_time ∨
      (a.niceness * a.remaining_time = b.niceness * b.remaining_time ∧
        set_bit_count a.cpu_mask < set_bit_count b.cpu_mask) := by
  rw [process_evaluation_true_iff, cpu_count_eq_set_bit_count a.cpu_mask ha,
    cpu_count_eq_set_bit_count b.cpu_mask hb]

/-- Witness for C2 at spec §8 example 2: both processes score 200 and the
tie is broken by the set-bit count (1 bit < 2 bits). -/
theorem claim_C2_witness :
    process_evaluation ⟨1, 0, 20, 10, 1⟩ ⟨2, 0, 10, 20, 3⟩ = true ↔
      20 * 10 < 10 * 20 ∨ (20 * 10 = 10 * 20 ∧ set_bit_count 1 < set_bit_count 3) :=
  claim_C2 ⟨1, 0, 20, 10, 1⟩ ⟨2, 0, 10, 20, 3⟩ (by decide) (by decide)

/-- C3: pushing a process whose (callback, context) identity matches an
already-queued entry leaves the queue completely unchanged and returns
`push_duplicate` exactly when `remaining_time`, `niceness` and `cpu_mask`
all also match, and `push_inconsistent` when any of them differs. -/
theorem claim_C3 (q : priority_queue) (p e : process_type)
    (hu : UniqueIds q.items) (he : e ∈ q.items)
    (hid : e.callback = p.callback ∧ e.context = p.context) :
    (push_to_queue q p).2 = q ∧
    ((push_to_queue q p).1 = .push_duplicate ↔
      e.remaining_time = p.remaining_time ∧ e.niceness = p.niceness ∧
        e.cpu_mask = p.cpu_mask) ∧
    ((push_to_queue q p).1 = .push_inconsistent ↔
      ¬(e.remaining_time = p.remaining_time ∧ e.niceness = p.niceness ∧
        e.cpu_mask = p.cpu_mask)) := by
  have hv := processes_are_valid_of_mem hu he hid
  have hvne : processes_are_valid q.items p ≠ .push_success := by
    rw [hv]
    split <;> exact fun hcon => push_result.noConfusion hcon
  rw [push_to_queue_of_invalid hvne, hv]
  refine ⟨rfl, ?_, ?_⟩
  · split
    next hcase => simp [hcase]
    next hcase => simp [hcase]
  · split
    next hcase => simp [hcase]
    next hcase => simp [hcase]

/-- Witness for C3: pushing a process with `pW2`'s identity but niceness 21
into `qW` (duplicate-check fields disagree, so `push_inconsistent`). -/
theorem claim_C3_witness :
    (push_to_queue qW ⟨2, 0, 21, 10, 3⟩).2 = qW ∧
    ((push_to_queue qW ⟨2, 0, 21, 10, 3⟩).1 = .push_duplicate ↔
      pW2.remaining_time = 10 ∧ pW2.niceness = 21 ∧ pW2.cpu_mask = 3) ∧
    ((push_to_queue qW ⟨2, 0, 21, 10, 3⟩).1 = .push_inconsistent ↔
      ¬(pW2.remaining_time = 10 ∧ pW2.niceness = 21 ∧ pW2.cpu_mask = 3)) :=
  claim_C3 qW ⟨2, 0, 21, 10, 3⟩ pW2 (by unfold UniqueIds; decide) (by decide)
    (by decide)

/-- C9: on success `copy_queue` gives the destination exactly the source's
process values in the same order with the same node count (fresh nodes in
the value model), and a failed node allocation discards the partial copy,
reports `false` and leaves the destination (and the source, which is never
written) untouched. -/
theorem claim_C9 (alloc : Nat → Bool) (dest source : priority_queue)
    (hs : queue_inv source) :
    ((∀ k, k < source.items.length → alloc k = true) →
      copy_queue alloc dest source = (true, ⟨source.items, source.items.length⟩) ∧
      (copy_queue alloc dest source).2.items = source.items ∧
      (copy_queue alloc dest source).2.size = source.size) ∧
    ((∃ k, k < source.items.length ∧ alloc k = false) →
      copy_queue alloc dest source = (false, dest)) := by
  constructor
  · intro hall
    have hc : copy_items alloc source.items 0 = some source.items :=
      copy_items_all source.items 0 fun j hj => by simpa using hall j hj
    have hcq : copy_queue alloc dest source =
        (true, ⟨source.items, source.items.length⟩) := by
      unfold copy_queue
      rw [hc]
    refine ⟨hcq, by rw [hcq], ?_⟩
    rw [hcq]
    exact hs.2.1.symm
  · rintro ⟨k, hk, hfail⟩
    have hc : copy_items alloc source.items 0 = none :=
      copy_items_fail source.items 0 ⟨k, hk, by simpa using hfail⟩
    unfold copy_queue
    rw [hc]

/-- Witness for C9: copying `qW` with all allocations succeeding yields an
equal, independently-owned queue; the all-succeed hypothesis is discharged
at a concrete oracle. -/
theorem claim_C9_witness :
    copy_queue (fun _ => true) create_queue qW = (true, ⟨qW.items, qW.items.length⟩) ∧
    (copy_queue (fun _ => true) create_queue qW).2.items = qW.items ∧
    (copy_queue (fun _ => true) create_queue qW).2.size = qW.size :=
  (claim_C9 (fun _ => true) create_queue qW (by unfold queue_inv; decide)).1
    fun k _ => rfl

/-- C6: `get_top` returns the earliest node in queue order whose mask
intersects the request (or nothing when none does) and, being a pure
function of the queue, never mutates it; `pop_top` performs the same scan,
returns the same process, removes exactly that node on a match, and leaves
the queue unchanged otherwise. -/
theorem claim_C6 (q : priority_queue) (m : Nat) :
    (∀ p, get_top q m = some p ↔
      ∃ i, ∃ h : i < q.items.length, q.items.get ⟨i, h⟩ = p ∧
        p.cpu_mask &&& m ≠ 0 ∧
        ∀ j, j < i → ∀ pj, q.items[j]? = some pj → pj.cpu_mask &&& m = 0) ∧
    (get_top q m = none ↔ ∀ p ∈ q.items, p.cpu_mask &&& m = 0) ∧
    (pop_top q m).1 = get_top q m ∧
    (get_top q m = none → (pop_top q m).2 = q) ∧
    (∀ p, get_top q m = some p →
      ∃ i, ∃ h : i < q.items.length, q.items.get ⟨i, h⟩ = p ∧
        (pop_top q m).2.items = q.items.eraseIdx i) := by
  refine ⟨?_, get_top_none_iff q m, ?_, ?_, ?_⟩
  · intro p
    constructor
    · intro h
      obtain ⟨hlt, hget⟩ := get_top_isSome_found h
      refine ⟨_, hlt, hget, ?_, ?_⟩
      · have hpred := @List.findIdx_getElem process_type
          (fun it => it.cpu_mask &&& m != 0) q.items hlt
        rw [List.get_eq_getElem] at hget
        rw [hget] at hpred
        simpa using hpred
      · intro j hj pj hpj
        have hfalse := List.not_of_lt_findIdx hj
        obtain ⟨hjlt, hjget⟩ := List.getElem?_eq_some_iff.mp hpj
        rw [hjget] at hfalse
        simpa using hfalse
    · rintro ⟨i, h, hget, hmask, hearlier⟩
      have hfi : (q.items.findIdx fun it => it.cpu_mask &&& m != 0) = i := by
        rw [List.findIdx_eq h]
        constructor
        · rw [List.get_eq_getElem] at hget
          rw [hget]
          simpa using hmask
        · intro j hji
          have hjlt : j < q.items.length := Nat.lt_trans hji h
          have hsome : q.items[j]? = some (q.items.get ⟨j, hjlt⟩) := by
            rw [List.getElem?_eq_getElem hjlt, List.get_eq_getElem]
          have := hearlier j hji (q.items.get ⟨j, hjlt⟩) hsome
          simpa using this
      have hlt : (q.items.findIdx fun it => it.cpu_mask &&& m != 0) < q.items.length :=
        hfi ▸ h
      rw [@get_top_found q m hlt]
      congr 1
      rw [← hget]
      congr 1
      exact Fin.ext hfi
  · by_cases hlt : (q.items.findIdx fun it => it.cpu_mask &&& m != 0) < q.items.length
    · rw [pop_top_found hlt, @get_top_found q m hlt]
    · rw [pop_top_not_found hlt,
        show get_top q m = q.items.find? fun it => it.cpu_mask &&& m != 0 from rfl,
        find?_eq_none_of_findIdx_ge hlt]
  · intro hnone
    by_cases hlt : (q.items.findIdx fun it => it.cpu_mask &&& m != 0) < q.items.length
    · rw [@get_top_found q m hlt] at hnone
      cases hnone
    · rw [pop_top_not_found hlt]
  · intro p h
    obtain ⟨hlt, hget⟩ := get_top_isSome_found h
    exact ⟨_, hlt, hget, by rw [pop_top_found hlt]; rfl⟩

/-- Witness for C6 at the fixture queue with mask 4 (no queued mask
intersects it): the `pop_top` scan agrees with `get_top`. -/
theorem claim_C6_witness : (pop_top qW 4).1 = get_top qW 4 :=
  (claim_C6 qW 4).2.2.1

theorem run_top_requeue_spec {q : priority_queue} (hq : queue_inv q)
    (hu : UniqueIds q.items) {i : Nat} (hlt : i < q.items.length)
    {proc : process_type} (hget : q.items.get ⟨i, hlt⟩ = proc) (nt : Nat) :
    (push_to_queue (pop_item q i) { proc with remaining_time := nt }).2.size = q.size ∧
    { proc with remaining_time := nt } ∈
      (push_to_queue (pop_item q i) { proc with remaining_time := nt }).2.items ∧
    (push_to_queue (pop_item q i) { proc with remaining_time := nt }).2.items.Pairwise
      fun a b => process_evaluation b a = false := by
  have he : q.items[i]? = some proc := by
    rw [List.getElem?_eq_getElem hlt]
    rw [List.get_eq_getElem] at hget
    rw [hget]
  have hv := valid_after_pop hu he { proc with remaining_time := nt } rfl rfl
  refine ⟨push_pop_size hq hlt hv, ?_,
    (queue_inv_push (queue_inv_pop_item hq hlt) _).1⟩
  have hperm :=
    (@push_to_queue_success_spec (pop_item q i) { proc with remaining_time := nt } hv).2.1
  exact hperm.mem_iff.mpr (List.mem_cons_self _ _)

/-- C4: when the callback invoked by `run_top` returns a non-zero value
`v`, the queue size is unchanged, the process's `remaining_time` becomes
`remaining_time - quantum + v` when the prior `remaining_time > quantum`
and `v` otherwise, the updated process is re-inserted at a sorted position
(the resulting chain is sorted), and the new `remaining_time` is returned. -/
theorem claim_C4 (F : Nat → Nat → Nat → Nat) (q : priority_queue) (m rt : Nat)
    (proc : process_type) (hq : queue_inv q) (hu : UniqueIds q.items)
    (htop : get_top q m = some proc)
    (hres : F proc.callback rt proc.context ≠ 0) :
    (run_top F q m rt).1 =
      (if rt < proc.remaining_time
        then proc.remaining_time - rt + F proc.callback rt proc.context
        else F proc.callback rt proc.context) ∧
    (run_top F q m rt).2.size = q.size ∧
    { proc with remaining_time :=
        (if rt < proc.remaining_time
          then proc.remaining_time - rt + F proc.callback rt proc.context
          else F proc.callback rt proc.context) } ∈ (run_top F q m rt).2.items ∧
    (run_top F q m rt).2.items.Pairwise fun a b => process_evaluation b a = false := by
  obtain ⟨hlt, hget, hpop1, heq⟩ := run_top_callback_nonzero htop hres rfl rfl
  rw [heq]
  have hspec := run_top_requeue_spec hq hu hlt hget
    (if rt < proc.remaining_time
      then proc.remaining_time - rt + F proc.callback rt proc.context
      else F proc.callback rt proc.context)
  exact ⟨rfl, hspec.1, hspec.2.1, hspec.2.2⟩

/-- Witness for C4 at spec §8 example 5: single process with
remaining_time 8, quantum 5, callback returning 3; the new remaining_time
is 8 - 5 + 3 = 6, the size stays 1, and the requeued entry is present. -/
theorem claim_C4_witness :
    (run_top (fun _ _ _ => 3) ⟨[⟨1, 0, 10, 8, 1⟩], 1⟩ 1 5).1 = 6 ∧
    (run_top (fun _ _ _ => 3) ⟨[⟨1, 0, 10, 8, 1⟩], 1⟩ 1 5).2.size = 1 ∧
    (⟨1, 0, 10, 6, 1⟩ : process_type) ∈
      (run_top (fun _ _ _ => 3) ⟨[⟨1, 0, 10, 8, 1⟩], 1⟩ 1 5).2.items ∧
    (run_top (fun _ _ _ => 3) ⟨[⟨1, 0, 10, 8, 1⟩], 1⟩ 1 5).2.items.Pairwise
      fun a b => process_evaluation b a = false :=
  claim_C4 (fun _ _ _ => 3) ⟨[⟨1, 0, 10, 8, 1⟩], 1⟩ 1 5 ⟨1, 0, 10, 8, 1⟩
    (by unfold queue_inv; decide) (by unfold UniqueIds; decide) (by decide)
    (by decide)

/-- C5: `run_top` returns 0 exactly when no queued process's mask
intersects the request (queue unchanged, no callback invoked) or when the
invoked callback returns 0 (in which case the selected identity is removed
and `size` drops by exactly 1). -/
theorem claim_C5 (F : Nat → Nat → Nat → Nat) (q : priority_queue) (m rt : Nat)
    (hq : queue_inv q) (hu : UniqueIds q.items) :
    ((∀ p ∈ q.items, p.cpu_mask &&& m = 0) → run_top F q m rt = (0, q)) ∧
    (∀ proc, get_top q m = some proc → F proc.callback rt proc.context = 0 →
      (run_top F q m rt).1 = 0 ∧
      (run_top F q m rt).2.size = q.size - 1 ∧
      ∀ it ∈ (run_top F q m rt).2.items,
        ¬(it.callback = proc.callback ∧ it.context = proc.context)) ∧
    ((run_top F q m rt).1 = 0 ↔
      (∀ p ∈ q.items, p.cpu_mask &&& m = 0) ∨
      ∃ proc, get_top q m = some proc ∧ F proc.callback rt proc.context = 0) := by
  have hzero : ∀ proc, get_top q m = some proc → F proc.callback rt proc.context = 0 →
      (run_top F q m rt).1 = 0 ∧
      (run_top F q m rt).2.size = q.size - 1 ∧
      ∀ it ∈ (run_top F q m rt).2.items,
        ¬(it.callback = proc.callback ∧ it.context = proc.context) := by
    intro proc htop hres
    obtain ⟨hlt, hget⟩ := get_top_isSome_found htop
    rw [run_top_callback_zero htop hres, pop_top_found hlt]
    refine ⟨rfl, ?_, ?_⟩
    · show (if q.items.length = 1 then 0 else q.size - 1) = q.size - 1
      have hl := hq.2.1
      split <;> omega
    · intro it hit
      have he : q.items[q.items.findIdx fun it => it.cpu_mask &&& m != 0]? =
          some proc := by
        rw [List.getElem?_eq_getElem hlt]
        rw [List.get_eq_getElem] at hget
        rw [hget]
      exact uniqueIds_eraseIdx_no_match hu he it hit
  refine ⟨?_, hzero, ?_, ?_⟩
  · intro hall
    exact run_top_no_match ((get_top_none_iff q m).mpr hall)
  · intro h0
    cases htop : get_top q m with
    | none => exact Or.inl ((get_top_none_iff q m).mp htop)
    | some proc =>
      by_cases hres : F proc.callback rt proc.context = 0
      · exact Or.inr ⟨proc, rfl, hres⟩
      · obtain ⟨hlt, hget, hpop1, heq⟩ := run_top_callback_nonzero htop hres rfl rfl
        rw [heq] at h0
        exact absurd h0 (by split <;> omega)
  · rintro (hall | ⟨proc, htop, hres⟩)
    · rw [run_top_no_match ((get_top_none_iff q m).mpr hall)]
    · exact (hzero proc htop hres).1

/-- Witness for C5 at spec §8 example 6: the callback returns 0, the
process is removed and `size` drops from 2 to 1. -/
theorem claim_C5_witness :
    (run_top (fun _ _ _ => 0) qW 1 5).1 = 0 ∧
    (run_top (fun _ _ _ => 0) qW 1 5).2.size = qW.size - 1 :=
  ⟨((claim_C5 (fun _ _ _ => 0) qW 1 5 (by unfold queue_inv; decide)
      (by unfold UniqueIds; decide)).2.1 pW2 (by decide) rfl).1,
   ((claim_C5 (fun _ _ _ => 0) qW 1 5 (by unfold queue_inv; decide)
      (by unfold UniqueIds; decide)).2.1 pW2 (by decide) rfl).2.1⟩

/-- C10: whenever `run_top` invokes a callback, the callback belongs to
the earliest eligible process (the one `get_top` returns, sitting at the
first mask-matching index); on a zero return exactly that node is removed,
and on a non-zero return the re-scanning `pop_top` — performed after the
in-place `remaining_time` update — still selects that exact process, which
is then re-pushed. -/
theorem claim_C10 (F : Nat → Nat → Nat → Nat) (q : priority_queue) (m rt : Nat)
    (proc : process_type) (htop : get_top q m = some proc) :
    (q.items.findIdx fun it => it.cpu_mask &&& m != 0) < q.items.length ∧
    q.items[q.items.findIdx fun it => it.cpu_mask &&& m != 0]? = some proc ∧
    (∀ j, j < (q.items.findIdx fun it => it.cpu_mask &&& m != 0) →
      ∀ pj, q.items[j]? = some pj → pj.cpu_mask &&& m = 0) ∧
    (F proc.callback rt proc.context = 0 →
      (pop_top q m).1 = some proc ∧
      run_top F q m rt =
        (0, pop_item q (q.items.findIdx fun it => it.cpu_mask &&& m != 0))) ∧
    (F proc.callback rt proc.context ≠ 0 →
      (pop_top ⟨q.items.set (q.items.findIdx fun it => it.cpu_mask &&& m != 0)
          { proc with remaining_time :=
            (if rt < proc.remaining_time
              then proc.remaining_time - rt + F proc.callback rt proc.context
              else F proc.callback rt proc.context) }, q.size⟩ m).1 =
        some { proc with remaining_time :=
          (if rt < proc.remaining_time
            then proc.remaining_time - rt + F proc.callback rt proc.context
            else F proc.callback rt proc.context) } ∧
      run_top F q m rt =
        ((if rt < proc.remaining_time
          then proc.remaining_time - rt + F proc.callback rt proc.context
          else F proc.callback rt proc.context),
          (push_to_queue
            (pop_item q (q.items.findIdx fun it => it.cpu_mask &&& m != 0))
            { proc with remaining_time :=
              (if rt < proc.remaining_time
                then proc.remaining_time - rt + F proc.callback rt proc.context
                else F proc.callback rt proc.context) }).2)) := by
  obtain ⟨hlt, hget⟩ := get_top_isSome_found htop
  have he : q.items[q.items.findIdx fun it => it.cpu_mask &&& m != 0]? = some proc := by
    rw [List.getElem?_eq_getElem hlt]
    rw [List.get_eq_getElem] at hget
    rw [hget]
  refine ⟨hlt, he, ?_, ?_, ?_⟩
  · intro j hj pj hpj
    have hfalse := List.not_of_lt_findIdx hj
    obtain ⟨hjlt, hjget⟩ := List.getElem?_eq_some_iff.mp hpj
    rw [hjget] at hfalse
    simpa using hfalse
  · intro hres
    constructor
    · rw [pop_top_found hlt]
      exact congrArg some hget
    · rw [run_top_callback_zero htop hres, pop_top_found hlt]
  · intro hres
    obtain ⟨hlt', hget', hpop1, heq⟩ := run_top_callback_nonzero htop hres rfl rfl
    exact ⟨hpop1, heq⟩

/-- Witness for C10: on the fixture queue with mask 1 and a callback
returning 0, the node removed by `run_top` is exactly the one `get_top`
selected. -/
theorem claim_C10_witness :
    (pop_top qW 1).1 = some pW2 ∧
    run_top (fun _ _ _ => 0) qW 1 5 =
      (0, pop_item qW (qW.items.findIdx fun it => it.cpu_mask &&& 1 != 0)) :=
  (claim_C10 (fun _ _ _ => 0) qW 1 5 pW2 (by decide)).2.2.2.1 rfl

/-- C7: `renice` with `new_niceness` in [10, 49] returns false and changes
nothing when no queued entry has the given identity; when the entry exists
it returns true, the multiset of entries becomes the old one with that
entry's niceness replaced, the chain stays sorted (the entry lands at a
correctly sorted position), and the size is unchanged. -/
theorem claim_C7 (q : priority_queue) (cb ctx n : Nat)
    (hq : queue_inv q) (hu : UniqueIds q.items) (_hn : 10 ≤ n ∧ n ≤ 49) :
    ((∀ it ∈ q.items, ¬(it.callback = cb ∧ it.context = ctx)) →
      renice q cb ctx n = (false, q)) ∧
    (∀ i, ∀ h : i < q.items.length,
      (q.items.get ⟨i, h⟩).callback = cb ∧ (q.items.get ⟨i, h⟩).context = ctx →
      (renice q cb ctx n).1 = true ∧
      (renice q cb ctx n).2.items.Perm
        ({ q.items.get ⟨i, h⟩ with niceness := n } :: q.items.eraseIdx i) ∧
      (renice q cb ctx n).2.items.Pairwise
        (fun a b => process_evaluation b a = false) ∧
      (renice q cb ctx n).2.size = q.size) := by
  constructor
  · intro habs
    apply renice_not_found
    intro hlt
    obtain ⟨x, hx, hpx⟩ := List.findIdx_lt_length.mp hlt
    rw [Bool.and_eq_true, beq_iff_eq, beq_iff_eq] at hpx
    exact habs x hx hpx
  · intro i h hid
    have hfi : (q.items.findIdx fun it => it.callback == cb && it.context == ctx) = i :=
      findIdx_eq_of_uniqueIds hu h hid
    have hlt : (q.items.findIdx fun it => it.callback == cb && it.context == ctx) <
        q.items.length := hfi ▸ h
    have hgeteq : q.items.get ⟨q.items.findIdx fun it =>
        it.callback == cb && it.context == ctx, hlt⟩ = q.items.get ⟨i, h⟩ := by
      congr 1
      exact Fin.ext hfi
    rw [renice_found n hlt, hgeteq, hfi]
    have he : q.items[i]? = some (q.items.get ⟨i, h⟩) := by
      rw [List.getElem?_eq_getElem h]
      rw [List.get_eq_getElem]
    have hv := valid_after_pop hu he { q.items.get ⟨i, h⟩ with niceness := n } rfl rfl
    have hspec := @push_to_queue_success_spec (pop_item q i)
      { q.items.get ⟨i, h⟩ with niceness := n } hv
    exact ⟨rfl, hspec.2.1, (queue_inv_push (queue_inv_pop_item hq h) _).1,
      push_pop_size hq h hv⟩

/-- Witness for C7: renicing the identity (1, 0) in the fixture queue to
niceness 15 succeeds, permutes as specified, stays sorted, and keeps the
size. -/
theorem claim_C7_witness :
    (renice qW 1 0 15).1 = true ∧
    (renice qW 1 0 15).2.items.Perm
      ({ pW1 with niceness := 15 } :: qW.items.eraseIdx 1) ∧
    (renice qW 1 0 15).2.items.Pairwise
      (fun a b => process_evaluation b a = false) ∧
    (renice qW 1 0 15).2.size = qW.size :=
  (claim_C7 qW 1 0 15 (by unfold queue_inv; decide) (by unfold UniqueIds; decide)
    (by decide)).2 1 (by decide) (by decide)

/-- C8 as stated is false on the code: in a queue of three processes with
equal comparator keys (all scores are 0 because remaining_time is 0, and
all masks agree), renicing the middle entry (identity (2, 0)) from
niceness 20 to the strictly lower 10 while remaining_time is unchanged
moves it from position 1 to position 2 — strictly later.  The queue is
exhibited as reachable by three valid pushes from the empty queue. -/
theorem claim_C8_counterexample :
    (push_to_queue (push_to_queue (push_to_queue create_queue
        ⟨1, 0, 20, 0, 1⟩).2 ⟨2, 0, 20, 0, 1⟩).2 ⟨3, 0, 20, 0, 1⟩).2 =
      ⟨[⟨1, 0, 20, 0, 1⟩, ⟨2, 0, 20, 0, 1⟩, ⟨3, 0, 20, 0, 1⟩], 3⟩ ∧
    queue_inv ⟨[⟨1, 0, 20, 0, 1⟩, ⟨2, 0, 20, 0, 1⟩, ⟨3, 0, 20, 0, 1⟩], 3⟩ ∧
    UniqueIds [⟨1, 0, 20, 0, 1⟩, ⟨2, 0, 20, 0, 1⟩, ⟨3, 0, 20, 0, 1⟩] ∧
    (([⟨1, 0, 20, 0, 1⟩, ⟨2, 0, 20, 0, 1⟩, ⟨3, 0, 20, 0, 1⟩] :
      List process_type).findIdx fun it => it.callback == 2 && it.context == 0) = 1 ∧
    (renice ⟨[⟨1, 0, 20, 0, 1⟩, ⟨2, 0, 20, 0, 1⟩, ⟨3, 0, 20, 0, 1⟩], 3⟩
      2 0 10).1 = true ∧
    ((renice ⟨[⟨1, 0, 20, 0, 1⟩, ⟨2, 0, 20, 0, 1⟩, ⟨3, 0, 20, 0, 1⟩], 3⟩
      2 0 10).2.items.findIdx fun it => it.callback == 2 && it.context == 0) = 2 := by
  unfold queue_inv UniqueIds
  decide

/-- C8 amended: renicing an existing entry to a strictly lower niceness
while its remaining_time is unchanged never moves it later, provided the
entry's remaining_time is positive (when remaining_time is 0 the score is
unchanged at 0 and the re-push appends the entry after equal-key peers,
which can move it later). -/
theorem claim_C8_amended (q : priority_queue) (cb ctx n : Nat) (i : Nat)
    (hq : queue_inv q) (hu : UniqueIds q.items) (h : i < q.items.length)
    (hid : (q.items.get ⟨i, h⟩).callback = cb ∧ (q.items.get ⟨i, h⟩).context = ctx)
    (hpos : 0 < (q.items.get ⟨i, h⟩).remaining_time)
    (hlow : n < (q.items.get ⟨i, h⟩).niceness) :
    ((renice q cb ctx n).2.items.findIdx fun it =>
      it.callback == cb && it.context == ctx) ≤ i := by
  have hfi : (q.items.findIdx fun it => it.callback == cb && it.context == ctx) = i :=
    findIdx_eq_of_uniqueIds hu h hid
  have hlt : (q.items.findIdx fun it => it.callback == cb && it.context == ctx) <
      q.items.length := hfi ▸ h
  have hgeteq : q.items.get ⟨q.items.findIdx fun it =>
      it.callback == cb && it.context == ctx, hlt⟩ = q.items.get ⟨i, h⟩ := by
    congr 1
    exact Fin.ext hfi
  rw [renice_found n hlt, hgeteq, hfi]
  show (((push_to_queue (pop_item q i)
      { q.items.get ⟨i, h⟩ with niceness := n }).2).items.findIdx fun it =>
    it.callback == cb && it.context == ctx) ≤ i
  have he : q.items[i]? = some (q.items.get ⟨i, h⟩) := by
    rw [List.getElem?_eq_getElem h]
    rw [List.get_eq_getElem]
  have hv := valid_after_pop hu he { q.items.get ⟨i, h⟩ with niceness := n } rfl rfl
  rw [push_items_of_valid hv,
    show (pop_item q i).items = q.items.eraseIdx i from rfl,
    insert_before_outranked_eq]
  have hkk_le : ((q.items.eraseIdx i).findIdx fun x =>
      process_evaluation { q.items.get ⟨i, h⟩ with niceness := n } x) ≤ i := by
    by_cases hlen : i < (q.items.eraseIdx i).length
    · by_contra hgt
      push_neg at hgt
      have hfalse := List.not_of_lt_findIdx hgt
      have hi1 : i + 1 < q.items.length := by
        have hle := List.length_eraseIdx_of_lt h
        omega
      have hli : (q.items.eraseIdx i).get ⟨i, hlen⟩ = q.items.get ⟨i + 1, hi1⟩ := by
        rw [List.get_eq_getElem, List.get_eq_getElem,
          List.getElem_eraseIdx_of_ge q.items i i hlen (Nat.le_refl i)]
      have hsorted := List.pairwise_iff_getElem.mp hq.1 i (i + 1) h hi1 (by omega)
      have hscore : ({ q.items.get ⟨i, h⟩ with niceness := n }).niceness *
          ({ q.items.get ⟨i, h⟩ with niceness := n }).remaining_time <
          (q.items.get ⟨i, h⟩).niceness * (q.items.get ⟨i, h⟩).remaining_time := by
        show n * (q.items.get ⟨i, h⟩).remaining_time <
          (q.items.get ⟨i, h⟩).niceness * (q.items.get ⟨i, h⟩).remaining_time
        exact Nat.mul_lt_mul_of_pos_right hlow hpos
      have heval : process_evaluation { q.items.get ⟨i, h⟩ with niceness := n }
          (q.items.get ⟨i + 1, hi1⟩) = true :=
        process_evaluation_true_of_score_lt_of_false hscore hsorted
      have hcontra : process_evaluation { q.items.get ⟨i, h⟩ with niceness := n }
          ((q.items.eraseIdx i).get ⟨i, hlen⟩) = false := hfalse
      rw [hli, heval] at hcontra
      cases hcontra
    · have hfl := @List.findIdx_le_length process_type
        (fun x => process_evaluation { q.items.get ⟨i, h⟩ with niceness := n } x)
        (q.items.eraseIdx i)
      omega
  have hidpred_e : (fun it => it.callback == cb && it.context == ctx)
      { q.items.get ⟨i, h⟩ with niceness := n } = true := by
    show ((q.items.get ⟨i, h⟩).callback == cb &&
      (q.items.get ⟨i, h⟩).context == ctx) = true
    rw [Bool.and_eq_true, beq_iff_eq, beq_iff_eq]
    exact hid
  have hidpred_take : ∀ y ∈ (q.items.eraseIdx i).take
      ((q.items.eraseIdx i).findIdx fun x =>
        process_evaluation { q.items.get ⟨i, h⟩ with niceness := n } x),
      (fun it => it.callback == cb && it.context == ctx) y = false := by
    intro y hy
    have hy' : y ∈ q.items.eraseIdx i := List.mem_of_mem_take hy
    have hnomatch := uniqueIds_eraseIdx_no_match hu he y hy'
    rw [Bool.eq_false_iff]
    intro hp
    rw [Bool.and_eq_true, beq_iff_eq, beq_iff_eq] at hp
    exact hnomatch ⟨hp.1.trans hid.1.symm, hp.2.trans hid.2.symm⟩
  rw [findIdx_append_first_true _ _ _ hidpred_take hidpred_e, List.length_take]
  have hfl := @List.findIdx_le_length process_type
    (fun x => process_evaluation { q.items.get ⟨i, h⟩ with niceness := n } x)
    (q.items.eraseIdx i)
  omega

/-- Witness for the amended C8: in a queue of two processes with positive
remaining_time, renicing the later one (identity (2, 0), score 400) down
to niceness 10 moves it to the front — never later. -/
theorem claim_C8_amended_witness :
    ((renice ⟨[⟨1, 0, 15, 20, 1⟩, ⟨2, 0, 20, 20, 1⟩], 2⟩ 2 0 10).2.items.findIdx
      fun it => it.callback == 2 && it.context == 0) ≤ 1 :=
  claim_C8_amended ⟨[⟨1, 0, 15, 20, 1⟩, ⟨2, 0, 20, 20, 1⟩], 2⟩ 2 0 10 1
    (by unfold queue_inv; decide) (by unfold UniqueIds; decide) (by decide)
    (by decide) (by decide) (by decide)
